import Mathlib

/-!
# Verification of the fenris element-assembly and interpolation layer

Shallow embedding of the core of the `fenris` finite-element library:

* `src/assembly/local.rs`: the `ElementConnectivityAssembler` contract, the
  `MapElementNodes` node-remapping wrapper and the `AggregateElementAssembler`
  aggregation combinator (construction, offset table, binary-search dispatch).
* `fenris-solid/src/logdet.rs`: the log-determinant kernel `log_det_F` and its
  per-dimension implementations.
* `src/interpolate.rs`: the `InterpolateFiniteElementSpace` trait's provided
  single-point query and the `Interpolator::from_space` constructor.
* `src/lib.rs`: the `PhysicalDim` sealed-trait dimension set.

Rust calls that can panic are embedded with the explicit outcome type
`PanicOr`; fallible assembly calls return `Except String`.
-/

/-- Outcome of a Rust call that may panic: either a normal return value or a
panic (assertion failure, index out of bounds, `unreachable!`, `todo!`). -/
inductive PanicOr (α : Type _) where
  | panics : PanicOr α
  | ret : α → PanicOr α
deriving DecidableEq

/-- Functorial action on the non-panicking outcome. -/
def PanicOr.map (f : α → β) : PanicOr α → PanicOr β
  | .panics => .panics
  | .ret a => .ret (f a)

/-- An implementor of the `ElementConnectivityAssembler` /
`ElementMatrixAssembler` / `ElementVectorAssembler` / `ElementScalarAssembler`
traits of `src/assembly/local.rs`, with all trait methods represented as pure
functions.  `populate_element_nodes` is modelled by the list of global node
indices the implementor writes into the caller's buffer for a given element,
and the three `assemble_*` methods by the value (of abstract type `α`) they
produce for a given element, or the `eyre` error they return. -/
structure Assembler (α : Type _) where
  solution_dim : ℕ
  num_elements : ℕ
  num_nodes : ℕ
  element_node_count : ℕ → ℕ
  populate_element_nodes : ℕ → List ℕ
  assemble_element_matrix_into : ℕ → Except String α
  assemble_element_vector_into : ℕ → Except String α
  assemble_element_scalar : ℕ → Except String α

/-- The `MapElementNodes` adapter returned by
`ElementConnectivityAssembler::map_element_nodes(new_num_nodes, f)`:
`num_nodes` is overridden, every populated node index is passed through `f`,
and everything else delegates to the wrapped assembler
(`src/assembly/local.rs`, `MapElementNodes` impls). -/
def Assembler.map_element_nodes (a : Assembler α) (new_num_nodes : ℕ) (f : ℕ → ℕ) :
    Assembler α where
  solution_dim := a.solution_dim
  num_elements := a.num_elements
  num_nodes := new_num_nodes
  element_node_count := a.element_node_count
  populate_element_nodes := fun element_index => (a.populate_element_nodes element_index).map f
  assemble_element_matrix_into := a.assemble_element_matrix_into
  assemble_element_vector_into := a.assemble_element_vector_into
  assemble_element_scalar := a.assemble_element_scalar

/-- The `AggregateElementAssembler` struct of `src/assembly/local.rs`. -/
structure AggregateElementAssembler (α : Type _) where
  assemblers : List (Assembler α)
  solution_dim : ℕ
  num_elements : ℕ
  num_nodes : ℕ
  element_offsets : List ℕ

/-- The offset-accumulation loop of `from_assemblers`: starting from a running
total, push the current total before adding each assembler's element count.
Returns the offset list together with the final total element count. -/
def accumulate_offsets : List ℕ → ℕ → List ℕ × ℕ
  | [], total => ([], total)
  | c :: cs, total =>
    let rest := accumulate_offsets cs (total + c)
    (total :: rest.1, rest.2)

/-- Embeds `AggregateElementAssembler::from_assemblers`: panics on an empty slice, on
mismatched solution dimensions, or on mismatched node counts; otherwise builds
the offset table and total element count by the accumulation loop. -/
def AggregateElementAssembler.from_assemblers (assemblers : List (Assembler α)) :
    PanicOr (AggregateElementAssembler α) :=
  match assemblers with
  | [] => .panics
  | a0 :: _ =>
    let sdim := a0.solution_dim
    let nodes := a0.num_nodes
    if assemblers.all (fun a => a.solution_dim == sdim) then
      if assemblers.all (fun a => a.num_nodes == nodes) then
        let offs := accumulate_offsets (assemblers.map (fun a => a.num_elements)) 0
        .ret { assemblers := assemblers, solution_dim := sdim,
               num_elements := offs.2, num_nodes := nodes, element_offsets := offs.1 }
      else .panics
    else .panics

/-- The documented contract of Rust `slice::binary_search` on a sorted slice:
`(true, i)` when the key occurs at index `i`, and `(false, j)` when the key is
absent, where `j` is the insertion point, i.e. the number of elements smaller
than the key. -/
def binary_search (xs : List ℕ) (key : ℕ) : Bool × ℕ :=
  if xs.contains key then (true, xs.indexOf key)
  else (false, xs.countP (fun x => decide (x < key)))

/-- Indexing `self.assemblers[idx]` and `self.element_offsets[idx]`, panicking
when the index is out of bounds. -/
def AggregateElementAssembler.resolve (agg : AggregateElementAssembler α) (idx : ℕ) :
    PanicOr (Assembler α × ℕ) :=
  match agg.assemblers.get? idx, agg.element_offsets.get? idx with
  | some a, some off => .ret (a, off)
  | _, _ => .panics

/-- Embeds `AggregateElementAssembler::find_assembler_and_offset_for_element_index`:
asserts `element_index <= num_elements` (note: not `<`), binary-searches the
offset table, maps an exact hit to that index and a miss to the insertion
point minus one (a miss at insertion point `0` underflows `usize` and
panics), then indexes the assembler and offset tables. -/
def AggregateElementAssembler.find_assembler_and_offset_for_element_index
    (agg : AggregateElementAssembler α) (element_index : ℕ) :
    PanicOr (Assembler α × ℕ) :=
  if element_index ≤ agg.num_elements then
    match binary_search agg.element_offsets element_index with
    | (true, idx) => agg.resolve idx
    | (false, idx) => if idx = 0 then .panics else agg.resolve (idx - 1)
  else .panics

/-- The aggregate's `element_node_count`: delegate to the owning constituent
at the local element index. -/
def AggregateElementAssembler.element_node_count (agg : AggregateElementAssembler α)
    (aggregate_element_index : ℕ) : PanicOr ℕ :=
  (agg.find_assembler_and_offset_for_element_index aggregate_element_index).map
    fun p => p.1.element_node_count (aggregate_element_index - p.2)

/-- The aggregate's `populate_element_nodes`: delegate to the owning
constituent at the local element index. -/
def AggregateElementAssembler.populate_element_nodes (agg : AggregateElementAssembler α)
    (aggregate_element_index : ℕ) : PanicOr (List ℕ) :=
  (agg.find_assembler_and_offset_for_element_index aggregate_element_index).map
    fun p => p.1.populate_element_nodes (aggregate_element_index - p.2)

/-- The aggregate's `assemble_element_matrix_into`: delegate to the owning
constituent at the local element index. -/
def AggregateElementAssembler.assemble_element_matrix_into (agg : AggregateElementAssembler α)
    (aggregate_element_index : ℕ) : PanicOr (Except String α) :=
  (agg.find_assembler_and_offset_for_element_index aggregate_element_index).map
    fun p => p.1.assemble_element_matrix_into (aggregate_element_index - p.2)

/-- The aggregate's `assemble_element_vector_into`: delegate to the owning
constituent at the local element index. -/
def AggregateElementAssembler.assemble_element_vector_into (agg : AggregateElementAssembler α)
    (aggregate_element_index : ℕ) : PanicOr (Except String α) :=
  (agg.find_assembler_and_offset_for_element_index aggregate_element_index).map
    fun p => p.1.assemble_element_vector_into (aggregate_element_index - p.2)

/-- The aggregate's `assemble_element_scalar`: delegate to the owning
constituent at the local element index. -/
def AggregateElementAssembler.assemble_element_scalar (agg : AggregateElementAssembler α)
    (aggregate_element_index : ℕ) : PanicOr (Except String α) :=
  (agg.find_assembler_and_offset_for_element_index aggregate_element_index).map
    fun p => p.1.assemble_element_scalar (aggregate_element_index - p.2)

/-- A concrete scalar element assembler with 3 elements, solution dimension 1
and 4 nodes: the first constituent of the spec's concrete aggregate
scenario. -/
def asmA : Assembler Unit where
  solution_dim := 1
  num_elements := 3
  num_nodes := 4
  element_node_count := fun _ => 2
  populate_element_nodes := fun element_index => [element_index, element_index + 1]
  assemble_element_matrix_into := fun _ => .ok ()
  assemble_element_vector_into := fun _ => .ok ()
  assemble_element_scalar := fun _ => .ok ()

/-- A concrete scalar element assembler with 2 elements, solution dimension 1
and 4 nodes: the second constituent of the spec's concrete aggregate
scenario. -/
def asmB : Assembler Unit where
  solution_dim := 1
  num_elements := 2
  num_nodes := 4
  element_node_count := fun _ => 3
  populate_element_nodes := fun element_index => [0, element_index + 1, element_index + 2]
  assemble_element_matrix_into := fun _ => .ok ()
  assemble_element_vector_into := fun _ => .ok ()
  assemble_element_scalar := fun _ => .ok ()

/-- The aggregate of `asmA` and `asmB` (element counts 3 and 2): exactly the
value built by `from_assemblers [asmA, asmB]`. -/
def aggAB : AggregateElementAssembler Unit where
  assemblers := [asmA, asmB]
  solution_dim := 1
  num_elements := 5
  num_nodes := 4
  element_offsets := [0, 3]

/-- The closed-form polynomial γ of the 2×2 kernel, collecting the
non-identity terms of `det(I + U) = (1+u11)(1+u22) - bc = 1 + γ`
(`log_det_F_2d` in `fenris-solid/src/logdet.rs`). -/
def gamma_2d {α : Type} [CommRing α] (du_dX : Matrix (Fin 2) (Fin 2) α) : α :=
  du_dX 0 0 * du_dX 1 1 + du_dX 0 0 + du_dX 1 1 - du_dX 0 1 * du_dX 1 0

/-- Embeds `log_det_F_2d`: `Some(ln_1p γ)` when `γ > -1`, else `None`.  The scalar
type's `ln_1p` method is passed explicitly, mirroring the Rust `T: Real`
generic bound. -/
def log_det_F_2d {α : Type} [LinearOrderedCommRing α] (ln_1p : α → α)
    (du_dX : Matrix (Fin 2) (Fin 2) α) : Option α :=
  if gamma_2d du_dX > -1 then some (ln_1p (gamma_2d du_dX)) else none

/-- The closed-form polynomial γ of the 3×3 kernel, with
`a = 1 + u11`, `e = 1 + u22`, `i = 1 + u33` and off-diagonal entries
`b, c, d, f, g, h` as in `log_det_F_3d`. -/
def gamma_3d {α : Type} [CommRing α] (du_dX : Matrix (Fin 3) (Fin 3) α) : α :=
  du_dX 0 0 * du_dX 1 1 * du_dX 2 2 + du_dX 0 0 * du_dX 1 1 + du_dX 0 0 * du_dX 2 2
    + du_dX 1 1 * du_dX 2 2 + du_dX 0 0 + du_dX 1 1 + du_dX 2 2
    + du_dX 0 1 * du_dX 1 2 * du_dX 2 0 + du_dX 0 2 * du_dX 1 0 * du_dX 2 1
    - du_dX 0 2 * (1 + du_dX 1 1) * du_dX 2 0
    - du_dX 0 1 * du_dX 1 0 * (1 + du_dX 2 2)
    - (1 + du_dX 0 0) * du_dX 1 2 * du_dX 2 1

/-- Embeds `log_det_F_3d`: `Some(ln_1p γ)` when `γ > -1`, else `None`. -/
def log_det_F_3d {α : Type} [LinearOrderedCommRing α] (ln_1p : α → α)
    (du_dX : Matrix (Fin 3) (Fin 3) α) : Option α :=
  if gamma_3d du_dX > -1 then some (ln_1p (gamma_3d du_dX)) else none

/-- The dimensions for which the sealed trait `PhysicalDim` is implemented:
`impl_physical_dim!(1, 2, 3, 4, 5, 6, 7, 8, 9, 10, 11, 12)` in
`src/lib.rs`. -/
def PhysicalDim (d : ℕ) : Prop :=
  d ∈ ([1, 2, 3, 4, 5, 6, 7, 8, 9, 10, 11, 12] : List ℕ)

/-- Embeds `log_det_F` (`fenris-solid/src/logdet.rs`): dispatch on `D::USIZE`.
Dimension 1 reads the single entry as the determinant
(`let det = du_dX[(0, 0)]`) and returns `Some(det.ln())` when `det > 0`;
dimensions 2 and 3 reinterpret the matrix at the concrete size
(`try_transmute_ref`) and call the closed-form kernels; every other dimension
hits the `unreachable!` branch.  The scalar type's `ln` and `ln_1p` methods
are passed explicitly; `U i j` is entry `(i, j)` of the `D × D` matrix. -/
def log_det_F {α : Type} [LinearOrderedCommRing α] (ln ln_1p : α → α) (d : ℕ)
    (U : ℕ → ℕ → α) : PanicOr (Option α) :=
  match d with
  | 1 =>
    let det := U 0 0
    .ret (if det > 0 then some (ln det) else none)
  | 2 => .ret (log_det_F_2d ln_1p (Matrix.of fun i j : Fin 2 => U i.val j.val))
  | 3 => .ret (log_det_F_3d ln_1p (Matrix.of fun i j : Fin 3 => U i.val j.val))
  | _ => .panics

/-- Model of `usize::MAX` on a 64-bit target. -/
def USIZE_MAX : ℕ := 2 ^ 64 - 1

/-- An implementor of the `InterpolateFiniteElementSpace` trait
(`src/interpolate.rs`).  The required batch method
`populate_closest_element_and_reference_coords` is modelled as a function
from the query points and the previous contents of the caller's result
buffer to the buffer's new contents; `populate_length` records that slice
mutation cannot change the buffer's length.  `P` is the physical point type
`OPoint<T, GeometryDim>` and `C` the reference-coordinate type
`OPoint<T, ReferenceDim>`. -/
structure InterpolateFiniteElementSpace (P C : Type) where
  populate_closest_element_and_reference_coords :
    List P → List (ℕ × C) → List (ℕ × C)
  populate_length : ∀ points result,
    (populate_closest_element_and_reference_coords points result).length = result.length

/-- The trait's provided method `find_closest_element_and_reference_coords`:
build the one-element result buffer `[(usize::MAX, OPoint::default())]`, run
the batch method on the one-point input slice, and destructure the single
result entry. -/
def InterpolateFiniteElementSpace.find_closest_element_and_reference_coords
    {P C : Type} [Inhabited C] (s : InterpolateFiniteElementSpace P C) (point : P) :
    ℕ × C :=
  (s.populate_closest_element_and_reference_coords [point]
      [(USIZE_MAX, (default : C))]).headD (USIZE_MAX, (default : C))

/-- A finite-element space as consumed by `Interpolator::from_space`: a
geometric dimension, a geometry collection (`num_geometries`, fallible
`get_geometry`, unwrapped by `from_space`), and each geometry's axis-aligned
bounding box.  The geometry type `G` and bounding-box type `B` are kept
abstract. -/
structure GeometricFESpace (G B : Type) where
  geometry_dim : ℕ
  num_geometries : ℕ
  get_geometry : ℕ → Option G
  bounding_box : G → B

/-- The `RTreeAccelerationStructure`, modelled by its bulk-loaded contents:
the rectangles (bounding boxes), each keyed by the geometry's original
index (`GeomWithData`). -/
structure RTreeAccelerationStructure (B : Type) where
  tree : List (B × ℕ)

/-- Embeds `RTreeAccelerationStructure::from_bounding_boxes`: enumerate the boxes
and bulk-load the tree keyed by original index. -/
def RTreeAccelerationStructure.from_bounding_boxes {B : Type} (boxes : List B) :
    RTreeAccelerationStructure B :=
  { tree := boxes.enum.map (fun p => (p.2, p.1)) }

/-- The `Interpolator` struct: the wrapped space plus the workspace holding
the dimension-specific acceleration structure built at construction. -/
structure Interpolator (G B : Type) where
  space : GeometricFESpace G B
  workspace : RTreeAccelerationStructure B

/-- Embeds `Interpolator::from_space`: collect every geometry's bounding box
(`get_geometry(i).unwrap().bounding_box()` for `i` in
`0..num_geometries`), then build the acceleration structure when the
geometric dimension is 2 or 3 and panic (`Unsupported dimension`)
otherwise. -/
def Interpolator.from_space {G B : Type} (space : GeometricFESpace G B) :
    PanicOr (Interpolator G B) :=
  match (List.range space.num_geometries).mapM space.get_geometry with
  | none => .panics
  | some gs =>
    let bounding_boxes := gs.map space.bounding_box
    match space.geometry_dim with
    | 2 => .ret { space := space,
                  workspace := RTreeAccelerationStructure.from_bounding_boxes bounding_boxes }
    | 3 => .ret { space := space,
                  workspace := RTreeAccelerationStructure.from_bounding_boxes bounding_boxes }
    | _ => .panics

/-- A concrete two-dimensional space with a single geometry, used to witness
`Interpolator::from_space` on a supported dimension. -/
def demoSpace : GeometricFESpace Unit Unit where
  geometry_dim := 2
  num_geometries := 1
  get_geometry := fun _ => some ()
  bounding_box := fun _ => ()

/-- Claim C5: aggregate construction fails fast: `from_assemblers` panics on an
empty assembler list, and on a non-empty list it succeeds exactly when every
constituent has the first constituent's solution dimension and node count. -/
theorem from_assemblers_fail_fast {α : Type} :
    AggregateElementAssembler.from_assemblers ([] : List (Assembler α)) = .panics
    ∧ ∀ (a0 : Assembler α) (rest : List (Assembler α)),
        (∃ agg, AggregateElementAssembler.from_assemblers (a0 :: rest) = .ret agg)
          ↔ ∀ a ∈ a0 :: rest,
              a.solution_dim = a0.solution_dim ∧ a.num_nodes = a0.num_nodes := by
  refine ⟨rfl, fun a0 rest => ?_⟩
  simp only [AggregateElementAssembler.from_assemblers]
  split_ifs with h1 h2
  · simp only [List.all_eq_true, beq_iff_eq] at h1 h2
    exact ⟨fun _ a ha => ⟨h1 a ha, h2 a ha⟩, fun _ => ⟨_, rfl⟩⟩
  · simp only [List.all_eq_true, beq_iff_eq] at h2
    constructor
    · rintro ⟨agg, hagg⟩; exact absurd hagg (by simp)
    · intro h; exact absurd (fun a ha => (h a ha).2) h2
  · simp only [List.all_eq_true, beq_iff_eq] at h1
    constructor
    · rintro ⟨agg, hagg⟩; exact absurd hagg (by simp)
    · intro h; exact absurd (fun a ha => (h a ha).1) h1

/-- Claim C6: the `map_element_nodes` wrapper overrides `num_nodes`, remaps each
populated node index through `f`, and delegates everything else unchanged; in
particular with the identity remap it is behavior-preserving except for
`num_nodes`. -/
theorem map_element_nodes_spec {α : Type} (a : Assembler α) (n : ℕ) (f : ℕ → ℕ) :
    (a.map_element_nodes n f).num_nodes = n
    ∧ (a.map_element_nodes n f).solution_dim = a.solution_dim
    ∧ (a.map_element_nodes n f).num_elements = a.num_elements
    ∧ (∀ i, (a.map_element_nodes n f).element_node_count i = a.element_node_count i)
    ∧ (∀ i, (a.map_element_nodes n f).populate_element_nodes i
          = (a.populate_element_nodes i).map f)
    ∧ (∀ i, (a.map_element_nodes n f).assemble_element_matrix_into i
          = a.assemble_element_matrix_into i)
    ∧ (∀ i, (a.map_element_nodes n f).assemble_element_vector_into i
          = a.assemble_element_vector_into i)
    ∧ (∀ i, (a.map_element_nodes n f).assemble_element_scalar i
          = a.assemble_element_scalar i)
    ∧ ∀ i, (a.map_element_nodes n (fun idx => idx)).populate_element_nodes i
          = a.populate_element_nodes i := by
  refine ⟨rfl, rfl, rfl, fun i => rfl, fun i => rfl, fun i => rfl, fun i => rfl,
    fun i => rfl, fun i => ?_⟩
  simp [Assembler.map_element_nodes]

theorem accumulate_offsets_snd (cs : List ℕ) (t : ℕ) :
    (accumulate_offsets cs t).2 = t + cs.sum := by
  induction cs generalizing t with
  | nil => simp [accumulate_offsets]
  | cons c cs ih => simp [accumulate_offsets, ih, Nat.add_assoc]

theorem accumulate_offsets_length (cs : List ℕ) (t : ℕ) :
    (accumulate_offsets cs t).1.length = cs.length := by
  induction cs generalizing t with
  | nil => rfl
  | cons c cs ih => simp [accumulate_offsets, ih]

theorem accumulate_offsets_get? (cs : List ℕ) (t k : ℕ) (hk : k < cs.length) :
    (accumulate_offsets cs t).1.get? k = some (t + (cs.take k).sum) := by
  induction cs generalizing t k with
  | nil => simp at hk
  | cons c cs ih =>
    cases k with
    | zero => simp [accumulate_offsets]
    | succ k =>
      simp only [accumulate_offsets, List.get?_cons_succ]
      rw [ih (t + c) k (by simpa using Nat.lt_of_succ_lt_succ hk)]
      simp [Nat.add_assoc]

theorem take_sum_mono (cs : List ℕ) {k l : ℕ} (h : k ≤ l) :
    (cs.take k).sum ≤ (cs.take l).sum := by
  induction l with
  | zero => simp [Nat.le_zero.mp h]
  | succ l ih =>
    rcases Nat.lt_or_ge k (l + 1) with hk | hk
    · refine le_trans (ih (Nat.lt_succ_iff.mp hk)) ?_
      rw [List.take_succ]
      simp
    · have : k = l + 1 := le_antisymm h hk
      simp [this]

theorem take_sum_strict_mono (cs : List ℕ) (hpos : ∀ c ∈ cs, 0 < c) {k l : ℕ}
    (hk : k < l) (hl : l ≤ cs.length) : (cs.take k).sum < (cs.take l).sum := by
  have hklen : k < cs.length := lt_of_lt_of_le hk hl
  have hstep : (cs.take k).sum < (cs.take (k + 1)).sum := by
    rw [List.sum_take_succ cs k hklen]
    have : 0 < cs[k] := hpos _ (cs.get_mem k hklen)
    omega
  exact lt_of_lt_of_le hstep (take_sum_mono cs hk)

theorem exists_take_sum_range (cs : List ℕ) (i : ℕ) (hi : i < cs.sum) :
    ∃ k, k < cs.length ∧ (cs.take k).sum ≤ i ∧ i < (cs.take (k + 1)).sum := by
  induction cs generalizing i with
  | nil => simp at hi
  | cons c cs ih =>
    rcases Nat.lt_or_ge i c with hic | hic
    · exact ⟨0, by simp, by simp, by simpa using hic⟩
    · have hi' : i - c < cs.sum := by simp at hi; omega
      obtain ⟨k, hk, hlo, hhi⟩ := ih (i - c) hi'
      refine ⟨k + 1, by simpa using Nat.succ_lt_succ hk, ?_, ?_⟩
      · simpa using by omega
      · simp only [List.take_succ_cons, List.sum_cons] at *
        omega

theorem take_sum_range_unique (cs : List ℕ) {i k1 k2 : ℕ}
    (_hk1 : k1 < cs.length) (hlo1 : (cs.take k1).sum ≤ i) (hhi1 : i < (cs.take (k1 + 1)).sum)
    (_hk2 : k2 < cs.length) (hlo2 : (cs.take k2).sum ≤ i) (hhi2 : i < (cs.take (k2 + 1)).sum) :
    k1 = k2 := by
  rcases Nat.lt_trichotomy k1 k2 with h | h | h
  · have := take_sum_mono cs (show k1 + 1 ≤ k2 from h)
    omega
  · exact h
  · have := take_sum_mono cs (show k2 + 1 ≤ k1 from h)
    omega

theorem countP_eq_of_iff (l : List ℕ) (p : ℕ → Bool) (j : ℕ) (hj : j ≤ l.length)
    (h : ∀ m (hm : m < l.length), p (l.get ⟨m, hm⟩) = true ↔ m < j) :
    l.countP p = j := by
  induction l generalizing j with
  | nil => simp at hj ⊢; omega
  | cons x l ih =>
    rw [List.countP_cons]
    cases j with
    | zero =>
      have hx : ¬ p x = true := by
        intro hpx
        exact absurd ((h 0 (by simp)).mp hpx) (by omega)
      have : l.countP p = 0 := by
        refine ih 0 (Nat.zero_le _) (fun m hm => ?_)
        constructor
        · intro hpm
          exact absurd ((h (m + 1) (by simpa using Nat.succ_lt_succ hm)).mp hpm) (by omega)
        · omega
      simp [this, hx]
    | succ j =>
      have hx : p x = true := (h 0 (by simp)).mpr (by omega)
      have : l.countP p = j := by
        refine ih j (by simpa using Nat.succ_le_succ_iff.mp hj) (fun m hm => ?_)
        have hiff := h (m + 1) (by simpa using Nat.succ_lt_succ hm)
        exact ⟨fun hp => by have := hiff.mp hp; omega, fun hmj => hiff.mpr (by omega)⟩
      simp [this, hx]

theorem indexOf_eq_of_get (l : List ℕ) (x : ℕ) (k : ℕ) (hk : k < l.length)
    (hget : l.get ⟨k, hk⟩ = x)
    (hne : ∀ m (hm : m < l.length), m < k → l.get ⟨m, hm⟩ ≠ x) :
    l.indexOf x = k := by
  induction l generalizing k with
  | nil => simp at hk
  | cons y l ih =>
    cases k with
    | zero =>
      have hyx : y = x := hget
      exact List.indexOf_cons_eq _ hyx
    | succ k =>
      have hy : y ≠ x := hne 0 (by simp) (by omega)
      rw [List.indexOf_cons_ne _ hy]
      have hk' : k < l.length := by simpa using Nat.lt_of_succ_lt_succ hk
      rw [ih k hk' hget (fun m hm hmk => hne (m + 1) (by simpa using Nat.succ_lt_succ hm) (by omega))]

theorem accumulate_offsets_get (cs : List ℕ) (k : ℕ)
    (hk : k < (accumulate_offsets cs 0).1.length) :
    (accumulate_offsets cs 0).1.get ⟨k, hk⟩ = (cs.take k).sum := by
  have hlen : k < cs.length := by rwa [accumulate_offsets_length] at hk
  have h1 := accumulate_offsets_get? cs 0 k hlen
  rw [List.get?_eq_get hk] at h1
  simpa using h1

theorem binary_search_offsets (cs : List ℕ) (hpos : ∀ c ∈ cs, 0 < c) (i k : ℕ)
    (hk : k < cs.length) (hlo : (cs.take k).sum ≤ i) (hhi : i < (cs.take (k + 1)).sum) :
    binary_search (accumulate_offsets cs 0).1 i = (true, k)
    ∨ binary_search (accumulate_offsets cs 0).1 i = (false, k + 1) := by
  have hlen : (accumulate_offsets cs 0).1.length = cs.length :=
    accumulate_offsets_length cs 0
  by_cases hmem : i ∈ (accumulate_offsets cs 0).1
  · left
    rw [binary_search, if_pos (by simpa using hmem)]
    obtain ⟨⟨m, hm⟩, hgm⟩ := List.mem_iff_get.mp hmem
    have hmlen : m < cs.length := by omega
    have hmsum : (cs.take m).sum = i := by
      rw [← accumulate_offsets_get cs m hm]; exact hgm
    have hmk : m = k := by
      refine take_sum_range_unique cs hmlen hmsum.le ?_ hk hlo hhi
      calc i = (cs.take m).sum := hmsum.symm
        _ < (cs.take (m + 1)).sum :=
            take_sum_strict_mono cs hpos (Nat.lt_succ_self m) hmlen
    subst hmk
    have hidx : (accumulate_offsets cs 0).1.indexOf i = m := by
      refine indexOf_eq_of_get _ i m hm ?_ ?_
      · rw [accumulate_offsets_get cs m hm]; exact hmsum
      · intro m2 hm2 hm2m
        rw [accumulate_offsets_get cs m2 hm2]
        have : (cs.take m2).sum < (cs.take m).sum :=
          take_sum_strict_mono cs hpos hm2m (by omega)
        omega
    rw [hidx]
  · right
    rw [binary_search, if_neg (by simpa using hmem)]
    have hcount : (accumulate_offsets cs 0).1.countP (fun x => decide (x < i)) = k + 1 := by
      refine countP_eq_of_iff _ _ (k + 1) (by omega) ?_
      intro m hm
      rw [accumulate_offsets_get cs m hm]
      have hmlen : m < cs.length := by omega
      simp only [decide_eq_true_eq]
      constructor
      · intro hlt
        by_contra hge
        have hk1m : k + 1 ≤ m := by omega
        have : (cs.take (k + 1)).sum ≤ (cs.take m).sum := take_sum_mono cs hk1m
        omega
      · intro hmk1
        have hmono : (cs.take m).sum ≤ (cs.take k).sum := take_sum_mono cs (by omega)
        have hnei : (cs.take m).sum ≠ i := by
          intro heq
          refine hmem ?_
          rw [← heq, ← accumulate_offsets_get cs m (by omega)]
          exact List.get_mem _ _ _
        omega
    rw [hcount]

theorem from_assemblers_inv {α : Type} {as : List (Assembler α)}
    {agg : AggregateElementAssembler α}
    (h : AggregateElementAssembler.from_assemblers as = .ret agg) :
    agg.assemblers = as
    ∧ agg.element_offsets = (accumulate_offsets (as.map (fun a => a.num_elements)) 0).1
    ∧ agg.num_elements = (as.map (fun a => a.num_elements)).sum
    ∧ as ≠ [] := by
  cases as with
  | nil => exact PanicOr.noConfusion h
  | cons a0 rest =>
    simp only [AggregateElementAssembler.from_assemblers] at h
    split_ifs at h with h1 h2
    · cases h
      refine ⟨rfl, rfl, ?_, by simp⟩
      simpa using accumulate_offsets_snd ((a0 :: rest).map (fun a => a.num_elements)) 0

theorem resolve_eq {α : Type} {as : List (Assembler α)} {agg : AggregateElementAssembler α}
    (hsome : AggregateElementAssembler.from_assemblers as = .ret agg) {k : ℕ}
    (hk : k < as.length) :
    agg.resolve k = .ret (as.get ⟨k, hk⟩, ((as.map (fun a => a.num_elements)).take k).sum) := by
  obtain ⟨hasm, hoffs, -, -⟩ := from_assemblers_inv hsome
  have hklen : k < (accumulate_offsets (as.map (fun a => a.num_elements)) 0).1.length := by
    rw [accumulate_offsets_length]; simpa using hk
  rw [AggregateElementAssembler.resolve, hasm, hoffs,
    List.get?_eq_get hk, List.get?_eq_get hklen, accumulate_offsets_get]

theorem find_owner {α : Type} {as : List (Assembler α)} {agg : AggregateElementAssembler α}
    (hsome : AggregateElementAssembler.from_assemblers as = .ret agg)
    (hpos : ∀ a ∈ as, 0 < a.num_elements) {i k : ℕ} (hk : k < as.length)
    (hlo : ((as.map (fun a => a.num_elements)).take k).sum ≤ i)
    (hhi : i < ((as.map (fun a => a.num_elements)).take (k + 1)).sum) :
    agg.find_assembler_and_offset_for_element_index i
      = .ret (as.get ⟨k, hk⟩, ((as.map (fun a => a.num_elements)).take k).sum) := by
  obtain ⟨hasm, hoffs, hnum, -⟩ := from_assemblers_inv hsome
  have hcslen : (as.map (fun a => a.num_elements)).length = as.length := by simp
  have hposc : ∀ c ∈ as.map (fun a => a.num_elements), 0 < c := by
    intro c hc
    obtain ⟨a, ha, rfl⟩ := List.mem_map.mp hc
    exact hpos a ha
  have hklen : k < (as.map (fun a => a.num_elements)).length := by omega
  have hile : i ≤ agg.num_elements := by
    rw [hnum]
    have h1 : ((as.map (fun a => a.num_elements)).take (k + 1)).sum
        ≤ ((as.map (fun a => a.num_elements)).take
            (as.map (fun a => a.num_elements)).length).sum :=
      take_sum_mono _ (by omega)
    rw [List.take_length] at h1
    omega
  rw [AggregateElementAssembler.find_assembler_and_offset_for_element_index, if_pos hile, hoffs]
  rcases binary_search_offsets (as.map (fun a => a.num_elements)) hposc i k hklen hlo hhi
    with hbs | hbs
  · rw [hbs]
    exact resolve_eq hsome hk
  · rw [hbs]
    simp only [Nat.succ_ne_zero, if_false, Nat.add_sub_cancel]
    exact resolve_eq hsome hk

/-- Claim C1: for every aggregate built by `from_assemblers` from constituents
with positive element counts (sharing solution dimension and node count, as
construction enforces), `num_elements` is the sum of the constituent element
counts; the precomputed offsets satisfy `offsets[0] = 0` and
`offsets[k+1] = offsets[k] + e_k`; and every aggregate element index
`i < num_elements` is resolved — by binary search over the offsets, an exact
hit owned by that offset's assembler and a miss decremented by one — to the
unique constituent `k` with `offsets[k] ≤ i < offsets[k] + e_k`, to which
every per-element operation delegates at local element index
`i - offsets[k]`. -/
theorem aggregate_assembler_correct {α : Type} (as : List (Assembler α))
    (agg : AggregateElementAssembler α)
    (hsome : AggregateElementAssembler.from_assemblers as = .ret agg)
    (hpos : ∀ a ∈ as, 0 < a.num_elements) :
    agg.num_elements = (as.map (fun a => a.num_elements)).sum
    ∧ agg.element_offsets.length = as.length
    ∧ agg.element_offsets.get? 0 = some 0
    ∧ (∀ k, k + 1 < as.length →
        agg.element_offsets.getD (k + 1) 0
          = agg.element_offsets.getD k 0 + (as.map (fun a => a.num_elements)).getD k 0)
    ∧ ∀ i, i < agg.num_elements →
        ∃ k, ∃ hk : k < as.length,
          ((as.map (fun a => a.num_elements)).take k).sum ≤ i
          ∧ i < ((as.map (fun a => a.num_elements)).take k).sum
                + (as.get ⟨k, hk⟩).num_elements
          ∧ (∀ k2, ∀ hk2 : k2 < as.length,
              ((as.map (fun a => a.num_elements)).take k2).sum ≤ i →
              i < ((as.map (fun a => a.num_elements)).take k2).sum
                    + (as.get ⟨k2, hk2⟩).num_elements →
              k2 = k)
          ∧ agg.find_assembler_and_offset_for_element_index i
              = .ret (as.get ⟨k, hk⟩, ((as.map (fun a => a.num_elements)).take k).sum)
          ∧ agg.element_node_count i
              = .ret ((as.get ⟨k, hk⟩).element_node_count
                  (i - ((as.map (fun a => a.num_elements)).take k).sum))
          ∧ agg.populate_element_nodes i
              = .ret ((as.get ⟨k, hk⟩).populate_element_nodes
                  (i - ((as.map (fun a => a.num_elements)).take k).sum))
          ∧ agg.assemble_element_matrix_into i
              = .ret ((as.get ⟨k, hk⟩).assemble_element_matrix_into
                  (i - ((as.map (fun a => a.num_elements)).take k).sum))
          ∧ agg.assemble_element_vector_into i
              = .ret ((as.get ⟨k, hk⟩).assemble_element_vector_into
                  (i - ((as.map (fun a => a.num_elements)).take k).sum))
          ∧ agg.assemble_element_scalar i
              = .ret ((as.get ⟨k, hk⟩).assemble_element_scalar
                  (i - ((as.map (fun a => a.num_elements)).take k).sum)) := by
  obtain ⟨hasm, hoffs, hnum, hne⟩ := from_assemblers_inv hsome
  have hcslen : (as.map (fun a => a.num_elements)).length = as.length := by simp
  refine ⟨hnum, ?_, ?_, ?_, ?_⟩
  · rw [hoffs, accumulate_offsets_length]; exact hcslen
  · rw [hoffs]
    have h0 : 0 < (as.map (fun a => a.num_elements)).length := by
      rw [hcslen]; exact List.length_pos.mpr hne
    rw [accumulate_offsets_get? _ 0 0 h0]
    simp
  · intro k hk1
    rw [hoffs]
    have hklen : k < (as.map (fun a => a.num_elements)).length := by omega
    have hk1len : k + 1 < (as.map (fun a => a.num_elements)).length := by omega
    have g1 : (accumulate_offsets (as.map (fun a => a.num_elements)) 0).1.getD k 0
        = ((as.map (fun a => a.num_elements)).take k).sum := by
      rw [List.getD_eq_get?, accumulate_offsets_get? _ 0 k hklen]; simp
    have g2 : (accumulate_offsets (as.map (fun a => a.num_elements)) 0).1.getD (k + 1) 0
        = ((as.map (fun a => a.num_elements)).take (k + 1)).sum := by
      rw [List.getD_eq_get?, accumulate_offsets_get? _ 0 (k + 1) hk1len]; simp
    have g3 : (as.map (fun a => a.num_elements)).getD k 0
        = (as.map (fun a => a.num_elements)).get ⟨k, hklen⟩ := by
      rw [List.getD_eq_get?, List.get?_eq_get hklen]; simp
    rw [g1, g2, g3, List.sum_take_succ _ k hklen]
    rfl
  · intro i hi
    rw [hnum] at hi
    obtain ⟨k, hklen, hlo, hhi⟩ := exists_take_sum_range _ i hi
    have hk : k < as.length := by omega
    have hcsk : (as.map (fun a => a.num_elements)).get ⟨k, hklen⟩
        = (as.get ⟨k, hk⟩).num_elements := by
      simp [List.get_map]
    have hhi' : i < ((as.map (fun a => a.num_elements)).take k).sum
        + (as.get ⟨k, hk⟩).num_elements := by
      rw [List.sum_take_succ _ k hklen] at hhi
      rw [← hcsk]
      exact hhi
    have hfind := find_owner hsome hpos hk hlo hhi
    refine ⟨k, hk, hlo, hhi', ?_, hfind, ?_, ?_, ?_, ?_, ?_⟩
    · intro k2 hk2 hlo2 hhi2
      have hk2len : k2 < (as.map (fun a => a.num_elements)).length := by omega
      refine take_sum_range_unique _ hk2len hlo2 ?_ hklen hlo hhi
      rw [List.sum_take_succ _ k2 hk2len]
      have hcsk2 : (as.map (fun a => a.num_elements)).get ⟨k2, hk2len⟩
          = (as.get ⟨k2, hk2⟩).num_elements := by
        simp [List.get_map]
      rw [show ((as.map (fun a => a.num_elements))[k2] : ℕ)
          = (as.map (fun a => a.num_elements)).get ⟨k2, hk2len⟩ from rfl, hcsk2]
      exact hhi2
    · rw [AggregateElementAssembler.element_node_count, hfind]; rfl
    · rw [AggregateElementAssembler.populate_element_nodes, hfind]; rfl
    · rw [AggregateElementAssembler.assemble_element_matrix_into, hfind]; rfl
    · rw [AggregateElementAssembler.assemble_element_vector_into, hfind]; rfl
    · rw [AggregateElementAssembler.assemble_element_scalar, hfind]; rfl

/-- Claim C9 (the code evaluated at the failing input): for the aggregate of
constituents with element counts 3 and 2 (`num_elements = 5`), the
per-element operations at aggregate index 5 — one past the valid range — pass
the aggregate's own bounds check (`assert!(element_index <= num_elements)`,
with `<=` instead of `<`) and delegate to the second constituent at the
out-of-range local index 2 instead of failing in the aggregate itself; only
indices strictly greater than `num_elements` panic in the aggregate's own
check. -/
theorem aggregate_bounds_check_off_by_one :
    aggAB.num_elements = 5
    ∧ aggAB.find_assembler_and_offset_for_element_index 5 = .ret (asmB, 3)
    ∧ aggAB.element_node_count 5 = .ret (asmB.element_node_count 2)
    ∧ aggAB.populate_element_nodes 5 = .ret (asmB.populate_element_nodes 2)
    ∧ aggAB.assemble_element_scalar 5 = .ret (asmB.assemble_element_scalar 2)
    ∧ aggAB.find_assembler_and_offset_for_element_index 6 = .panics :=
  ⟨rfl, rfl, rfl, rfl, rfl, rfl⟩

theorem gamma_2d_eq_det (U : Matrix (Fin 2) (Fin 2) ℝ) :
    1 + gamma_2d U = (1 + U).det := by
  rw [Matrix.det_fin_two, gamma_2d]
  simp only [Matrix.add_apply, Matrix.one_apply]
  norm_num
  ring

theorem gamma_3d_eq_det (U : Matrix (Fin 3) (Fin 3) ℝ) :
    1 + gamma_3d U = (1 + U).det := by
  rw [Matrix.det_fin_three, gamma_3d]
  simp only [Matrix.add_apply, Matrix.one_apply]
  norm_num [Fin.ext_iff]
  ring

theorem log_det_F_2d_eq_ite (U : Matrix (Fin 2) (Fin 2) ℝ) :
    log_det_F_2d (fun g => Real.log (1 + g)) U
      = if 0 < (1 + U).det then some (Real.log ((1 + U).det)) else none := by
  have hid := gamma_2d_eq_det U
  rw [log_det_F_2d]
  by_cases h : gamma_2d U > -1
  · rw [if_pos h, if_pos (by rw [← hid]; linarith)]
    rw [← hid]
  · rw [if_neg h, if_neg (by rw [← hid]; intro hc; exact h (by linarith))]

theorem log_det_F_3d_eq_ite (U : Matrix (Fin 3) (Fin 3) ℝ) :
    log_det_F_3d (fun g => Real.log (1 + g)) U
      = if 0 < (1 + U).det then some (Real.log ((1 + U).det)) else none := by
  have hid := gamma_3d_eq_det U
  rw [log_det_F_3d]
  by_cases h : gamma_3d U > -1
  · rw [if_pos h, if_pos (by rw [← hid]; linarith)]
    rw [← hid]
  · rw [if_neg h, if_neg (by rw [← hid]; intro hc; exact h (by linarith))]

/-- Claim C2: for 2×2 and 3×3 displacement gradients the closed-form polynomial
γ satisfies `1 + γ = det(I + U)`; the kernels return
`some (log (det (I + U)))` — computed as `log1p γ` — exactly when
`det (I + U) > 0` and `none` otherwise; the `log_det_F` dispatch forwards
dimensions 2 and 3 to these kernels; and for the zero matrix the result is
`some 0`. -/
theorem log_det_F_2d_3d_spec :
    (∀ U : Matrix (Fin 2) (Fin 2) ℝ, 1 + gamma_2d U = (1 + U).det)
    ∧ (∀ U : Matrix (Fin 2) (Fin 2) ℝ,
        log_det_F_2d (fun g => Real.log (1 + g)) U
          = if 0 < (1 + U).det then some (Real.log ((1 + U).det)) else none)
    ∧ (∀ U : Matrix (Fin 3) (Fin 3) ℝ, 1 + gamma_3d U = (1 + U).det)
    ∧ (∀ U : Matrix (Fin 3) (Fin 3) ℝ,
        log_det_F_3d (fun g => Real.log (1 + g)) U
          = if 0 < (1 + U).det then some (Real.log ((1 + U).det)) else none)
    ∧ (∀ (ln ln_1p : ℝ → ℝ) (U : ℕ → ℕ → ℝ),
        log_det_F ln ln_1p 2 U
            = .ret (log_det_F_2d ln_1p (Matrix.of fun i j : Fin 2 => U i.val j.val))
        ∧ log_det_F ln ln_1p 3 U
            = .ret (log_det_F_3d ln_1p (Matrix.of fun i j : Fin 3 => U i.val j.val)))
    ∧ log_det_F_2d (fun g => Real.log (1 + g)) (0 : Matrix (Fin 2) (Fin 2) ℝ) = some 0
    ∧ log_det_F_3d (fun g => Real.log (1 + g)) (0 : Matrix (Fin 3) (Fin 3) ℝ) = some 0 := by
  refine ⟨gamma_2d_eq_det, log_det_F_2d_eq_ite, gamma_3d_eq_det, log_det_F_3d_eq_ite,
    fun ln ln_1p U => ⟨rfl, rfl⟩, ?_, ?_⟩
  · rw [log_det_F_2d_eq_ite]
    norm_num
  · rw [log_det_F_3d_eq_ite]
    norm_num

/-- Claim C3 (evaluating the code at the failing input): at the 1×1 zero
displacement gradient, `det(I + U) = 1 + 0 > 0`, so the section 4.3 contract
demands `some (log 1) = some 0`; but the dimension-1 branch of `log_det_F`
reads the raw entry `0` as the determinant and returns `none`. -/
theorem log_det_F_dim1_zero_entry :
    log_det_F Real.log (fun g => Real.log (1 + g)) 1 (fun _ _ => (0 : ℝ)) = .ret none
    ∧ (0 : ℝ) < 1 + 0 ∧ Real.log (1 + 0) = 0 := by
  refine ⟨?_, by norm_num, by norm_num⟩
  rw [log_det_F]
  rw [if_neg (lt_irrefl (0 : ℝ))]

/-- Claim C4: the dimension-1 branch of `log_det_F` returns `some (ln c)` when
the single matrix entry `c` is positive and `none` when `c ≤ 0`. -/
theorem log_det_F_dim1_spec (ln ln_1p : ℝ → ℝ) (U : ℕ → ℕ → ℝ) :
    log_det_F ln ln_1p 1 U = .ret (if 0 < U 0 0 then some (ln (U 0 0)) else none) :=
  rfl

/-- Claim C10: every dimension `4 ≤ d ≤ 12` is admitted by the `PhysicalDim`
bound (the sealed trait is implemented for `Const<1>` through `Const<12>`),
yet `log_det_F` hits the `unreachable!` branch — it panics — on every `d × d`
displacement gradient, for any scalar operations: the kernel's effective
domain is strictly narrower than its declared type bound. -/
theorem log_det_F_unreachable_dims (d : ℕ) (h4 : 4 ≤ d) (h12 : d ≤ 12)
    (ln ln_1p : ℝ → ℝ) (U : ℕ → ℕ → ℝ) :
    PhysicalDim d ∧ log_det_F ln ln_1p d U = .panics := by
  constructor
  · rw [PhysicalDim]
    interval_cases d <;> simp
  · interval_cases d <;> rfl

/-- Witness for `log_det_F_unreachable_dims` at dimension 7. -/
theorem log_det_F_unreachable_dims_witness :
    PhysicalDim 7
    ∧ log_det_F (fun x => x) (fun x => x) 7 (fun _ _ => (0 : ℝ)) = .panics :=
  log_det_F_unreachable_dims 7 (by decide) (by decide) (fun x => x) (fun x => x)
    (fun _ _ => (0 : ℝ))

/-- Witness for `aggregate_assembler_correct` at the spec's concrete
scenario: a first constituent with 3 elements and a second with 2. -/
theorem aggregate_assembler_correct_witness :
    (AggregateElementAssembler.from_assemblers [asmA, asmB] = .ret aggAB
      ∧ ∀ a ∈ [asmA, asmB], 0 < a.num_elements)
    ∧ (aggAB.num_elements = ([asmA, asmB].map (fun a => a.num_elements)).sum
    ∧ aggAB.element_offsets.length = [asmA, asmB].length
    ∧ aggAB.element_offsets.get? 0 = some 0
    ∧ (∀ k, k + 1 < [asmA, asmB].length →
        aggAB.element_offsets.getD (k + 1) 0
          = aggAB.element_offsets.getD k 0
            + ([asmA, asmB].map (fun a => a.num_elements)).getD k 0)
    ∧ ∀ i, i < aggAB.num_elements →
        ∃ k, ∃ hk : k < [asmA, asmB].length,
          (([asmA, asmB].map (fun a => a.num_elements)).take k).sum ≤ i
          ∧ i < (([asmA, asmB].map (fun a => a.num_elements)).take k).sum
                + ([asmA, asmB].get ⟨k, hk⟩).num_elements
          ∧ (∀ k2, ∀ hk2 : k2 < [asmA, asmB].length,
              (([asmA, asmB].map (fun a => a.num_elements)).take k2).sum ≤ i →
              i < (([asmA, asmB].map (fun a => a.num_elements)).take k2).sum
                    + ([asmA, asmB].get ⟨k2, hk2⟩).num_elements →
              k2 = k)
          ∧ aggAB.find_assembler_and_offset_for_element_index i
              = .ret ([asmA, asmB].get ⟨k, hk⟩,
                  (([asmA, asmB].map (fun a => a.num_elements)).take k).sum)
          ∧ aggAB.element_node_count i
              = .ret (([asmA, asmB].get ⟨k, hk⟩).element_node_count
                  (i - (([asmA, asmB].map (fun a => a.num_elements)).take k).sum))
          ∧ aggAB.populate_element_nodes i
              = .ret (([asmA, asmB].get ⟨k, hk⟩).populate_element_nodes
                  (i - (([asmA, asmB].map (fun a => a.num_elements)).take k).sum))
          ∧ aggAB.assemble_element_matrix_into i
              = .ret (([asmA, asmB].get ⟨k, hk⟩).assemble_element_matrix_into
                  (i - (([asmA, asmB].map (fun a => a.num_elements)).take k).sum))
          ∧ aggAB.assemble_element_vector_into i
              = .ret (([asmA, asmB].get ⟨k, hk⟩).assemble_element_vector_into
                  (i - (([asmA, asmB].map (fun a => a.num_elements)).take k).sum))
          ∧ aggAB.assemble_element_scalar i
              = .ret (([asmA, asmB].get ⟨k, hk⟩).assemble_element_scalar
                  (i - (([asmA, asmB].map (fun a => a.num_elements)).take k).sum))) :=
  ⟨⟨rfl, by decide⟩, aggregate_assembler_correct [asmA, asmB] aggAB rfl (by decide)⟩

/-- Claim C7: the provided single-point query
`find_closest_element_and_reference_coords` returns exactly the entry the
batch method writes for the one-element input slice and the one-element
initial result buffer: the two forms are equivalent, with no divergent
single-point fast path. -/
theorem single_point_query_is_batch_on_singleton {P C : Type} [Inhabited C]
    (s : InterpolateFiniteElementSpace P C) (point : P) :
    [s.find_closest_element_and_reference_coords point]
      = s.populate_closest_element_and_reference_coords [point]
          [(USIZE_MAX, (default : C))] := by
  have h := s.populate_length [point] [(USIZE_MAX, (default : C))]
  rw [InterpolateFiniteElementSpace.find_closest_element_and_reference_coords]
  generalize hgen : s.populate_closest_element_and_reference_coords [point]
      [(USIZE_MAX, (default : C))] = out at h ⊢
  rcases out with _ | ⟨x, _ | ⟨y, tl⟩⟩
  · simp at h
  · rfl
  · simp at h

/-- Claim C8: `Interpolator::from_space` (given that every geometry is present)
succeeds exactly when the space's geometric dimension is 2 or 3, storing the
acceleration structure bulk-loaded from every geometry's bounding box; every
other dimension, including 1, panics with the unsupported-dimension error. -/
theorem from_space_supported_dimensions {G B : Type} (space : GeometricFESpace G B)
    (gs : List G)
    (hgs : (List.range space.num_geometries).mapM space.get_geometry = some gs) :
    ((∃ interp : Interpolator G B,
        Interpolator.from_space space = .ret interp
        ∧ interp.space = space
        ∧ interp.workspace
            = RTreeAccelerationStructure.from_bounding_boxes (gs.map space.bounding_box))
      ↔ (space.geometry_dim = 2 ∨ space.geometry_dim = 3))
    ∧ (space.geometry_dim ≠ 2 → space.geometry_dim ≠ 3 →
        Interpolator.from_space space = .panics) := by
  have hfrom : Interpolator.from_space space
      = match space.geometry_dim with
        | 2 => .ret { space := space,
                      workspace := RTreeAccelerationStructure.from_bounding_boxes
                        (gs.map space.bounding_box) }
        | 3 => .ret { space := space,
                      workspace := RTreeAccelerationStructure.from_bounding_boxes
                        (gs.map space.bounding_box) }
        | _ => .panics := by
    simp only [Interpolator.from_space, hgs]
  rcases hdim : space.geometry_dim with _ | _ | _ | _ | n
  all_goals rw [hdim] at hfrom
  · exact ⟨⟨fun ⟨interp, hi, _, _⟩ => absurd (hfrom.symm.trans hi) (by simp),
      fun hd => absurd hd (by omega)⟩, fun _ _ => hfrom⟩
  · exact ⟨⟨fun ⟨interp, hi, _, _⟩ => absurd (hfrom.symm.trans hi) (by simp),
      fun hd => absurd hd (by omega)⟩, fun _ _ => hfrom⟩
  · exact ⟨⟨fun _ => Or.inl rfl, fun _ => ⟨_, hfrom, rfl, rfl⟩⟩,
      fun h2 _ => absurd rfl h2⟩
  · exact ⟨⟨fun _ => Or.inr rfl, fun _ => ⟨_, hfrom, rfl, rfl⟩⟩,
      fun _ h3 => absurd rfl h3⟩
  · exact ⟨⟨fun ⟨interp, hi, _, _⟩ => absurd (hfrom.symm.trans hi) (by simp),
      fun hd => absurd hd (by omega)⟩, fun _ _ => hfrom⟩

/-- Witness for `from_space_supported_dimensions` at a concrete
two-dimensional single-geometry space. -/
theorem from_space_supported_dimensions_witness :
    ((List.range demoSpace.num_geometries).mapM demoSpace.get_geometry
        = some [()])
    ∧ (((∃ interp : Interpolator Unit Unit,
          Interpolator.from_space demoSpace = .ret interp
          ∧ interp.space = demoSpace
          ∧ interp.workspace
              = RTreeAccelerationStructure.from_bounding_boxes
                  ([()].map demoSpace.bounding_box))
        ↔ (demoSpace.geometry_dim = 2 ∨ demoSpace.geometry_dim = 3))
      ∧ (demoSpace.geometry_dim ≠ 2 → demoSpace.geometry_dim ≠ 3 →
          Interpolator.from_space demoSpace = .panics)) :=
  ⟨rfl, from_space_supported_dimensions demoSpace [()] rfl⟩
